import Mathlib

/-!
Verification of the log-analysis pipeline of this repository
(files `03-check_logs/core.py` and `03-check_logs/main.py`).

Python strings are modelled as `List Char`.  The character classes used by
the Python runtime (`str.split` whitespace, the regex class `\d` compiled by
`_strptime`, `str.upper`) are modelled on the ASCII range, which covers the
whole wire format of the program.
-/

namespace CheckLogs

/-- Whitespace test used by `str.split()` with no separator. -/
def isWs (c : Char) : Bool := c.isWhitespace

/-- Negation of `isWs`, used when scanning a token. -/
def notWs (c : Char) : Bool := !(isWs c)

/-- Digit test modelling the regex class `\d` on ASCII input. -/
def isDigitC (c : Char) : Bool := c.isDigit

/-- Numeric value of an ASCII digit. -/
def digitVal (c : Char) : Nat := c.toNat - '0'.toNat

/-- Value of a digit string, most significant digit first. -/
def digitsToNat (cs : List Char) : Nat := cs.foldl (fun a c => a * 10 + digitVal c) 0

/-- Worker for `pySplit`, structurally recursive on a fuel argument that
bounds the number of produced tokens (one character at least is consumed
before every recursive call, so `length + 1` fuel is always enough). -/
def pySplitAux : Nat → Nat → List Char → List (List Char)
  | 0, _, _ => []
  | fuel + 1, msp, cs =>
    let cs' := cs.dropWhile isWs
    if cs' = [] then []
    else if msp = 0 then [cs']
    else cs'.takeWhile notWs :: pySplitAux fuel (msp - 1) (cs'.dropWhile notWs)

/-- Model of Python `s.split(maxsplit=msp)`: runs of whitespace separate
tokens, no empty tokens are produced, and once `msp` separators have been
consumed the remainder of the string (with its leading whitespace removed)
is the final token. -/
def pySplit (msp : Nat) (cs : List Char) : List (List Char) :=
  pySplitAux (cs.length + 1) msp cs

/-- `LINE_MAX_SIZE` from `core.py`. -/
def LINE_MAX_SIZE : Nat := 10000

/-- `LOG_COLUMN_COUNT` from `core.py`. -/
def LOG_COLUMN_COUNT : Nat := 4

/-- Model of one call `fh.readline(n)` on the remaining decoded stream:
consume characters up to and including the first newline, but at most `n`
characters.  Returns the line read and the rest of the stream. -/
def takeLine : Nat → List Char → List Char × List Char
  | _, [] => ([], [])
  | n, c :: cs =>
    if n = 0 then ([], c :: cs)
    else if c = '\n' then ([c], cs)
    else
      let p := takeLine (n - 1) cs
      (c :: p.1, p.2)

/-- Worker for `readLines`; the fuel (at least the length of the stream)
makes the recursion structural, every read consumes at least one
character. -/
def readLinesAux : Nat → List Char → List (List Char)
  | 0, _ => []
  | _ + 1, [] => []
  | fuel + 1, c :: cs =>
    let p := takeLine LINE_MAX_SIZE (c :: cs)
    p.1 :: readLinesAux fuel p.2

/-- Model of the read loop `iter(lambda: fh.readline(LINE_MAX_SIZE), "")` in
`load_logs`: the successive results of bounded `readline` calls until the
stream is exhausted. -/
def readLines (cs : List Char) : List (List Char) := readLinesAux cs.length cs

/-- The six fields matched by `datetime.strptime` under the fixed format
`%Y-%m-%d %H:%M:%S`. -/
structure DateTime where
  year : Nat
  month : Nat
  day : Nat
  hour : Nat
  minute : Nat
  second : Nat
deriving DecidableEq

/-- Candidates for the `%Y` directive, regex `\d\d\d\d` (exactly four
digits).  Each candidate is the matched value with the rest of the input;
candidates are listed in regex alternation order. -/
def candY : List Char → List (Nat × List Char)
  | a :: b :: c :: d :: rest =>
    if isDigitC a ∧ isDigitC b ∧ isDigitC c ∧ isDigitC d then
      [(digitsToNat [a, b, c, d], rest)]
    else []
  | _ => []

/-- Candidates for `%m`, regex `1[0-2]|0[1-9]|[1-9]` in alternation order. -/
def candm : List Char → List (Nat × List Char)
  | [] => []
  | [a] => if isDigitC a ∧ a ≠ '0' then [(digitVal a, [])] else []
  | a :: b :: rest =>
    (if a = '1' ∧ (b = '0' ∨ b = '1' ∨ b = '2') then [(digitsToNat [a, b], rest)] else []) ++
    (if a = '0' ∧ isDigitC b ∧ b ≠ '0' then [(digitsToNat [a, b], rest)] else []) ++
    (if isDigitC a ∧ a ≠ '0' then [(digitVal a, b :: rest)] else [])

/-- Candidates for `%d`, regex `3[01]|[12]\d|0[1-9]|[1-9]`. -/
def candd : List Char → List (Nat × List Char)
  | [] => []
  | [a] => if isDigitC a ∧ a ≠ '0' then [(digitVal a, [])] else []
  | a :: b :: rest =>
    (if a = '3' ∧ (b = '0' ∨ b = '1') then [(digitsToNat [a, b], rest)] else []) ++
    (if (a = '1' ∨ a = '2') ∧ isDigitC b then [(digitsToNat [a, b], rest)] else []) ++
    (if a = '0' ∧ isDigitC b ∧ b ≠ '0' then [(digitsToNat [a, b], rest)] else []) ++
    (if isDigitC a ∧ a ≠ '0' then [(digitVal a, b :: rest)] else [])

/-- Candidates for `%H`, regex `2[0-3]|[0-1]\d|\d`. -/
def candH : List Char → List (Nat × List Char)
  | [] => []
  | [a] => if isDigitC a then [(digitVal a, [])] else []
  | a :: b :: rest =>
    (if a = '2' ∧ (b = '0' ∨ b = '1' ∨ b = '2' ∨ b = '3') then
      [(digitsToNat [a, b], rest)] else []) ++
    (if (a = '0' ∨ a = '1') ∧ isDigitC b then [(digitsToNat [a, b], rest)] else []) ++
    (if isDigitC a then [(digitVal a, b :: rest)] else [])

/-- Candidates for `%M`, regex `[0-5]\d|\d`. -/
def candM : List Char → List (Nat × List Char)
  | [] => []
  | [a] => if isDigitC a then [(digitVal a, [])] else []
  | a :: b :: rest =>
    (if isDigitC a ∧ digitVal a ≤ 5 ∧ isDigitC b then [(digitsToNat [a, b], rest)] else []) ++
    (if isDigitC a then [(digitVal a, b :: rest)] else [])

/-- Candidates for `%S`, regex `6[0-1]|[0-5]\d|\d` (the regex admits leap
seconds, the later `datetime` constructor rejects them). -/
def candS : List Char → List (Nat × List Char)
  | [] => []
  | [a] => if isDigitC a then [(digitVal a, [])] else []
  | a :: b :: rest =>
    (if a = '6' ∧ (b = '0' ∨ b = '1') then [(digitsToNat [a, b], rest)] else []) ++
    (if isDigitC a ∧ digitVal a ≤ 5 ∧ isDigitC b then [(digitsToNat [a, b], rest)] else []) ++
    (if isDigitC a then [(digitVal a, b :: rest)] else [])

/-- Candidate for a literal character of the compiled format regex. -/
def candLit (c : Char) : List Char → List (List Char)
  | [] => []
  | d :: rest => if d = c then [rest] else []

/-- Candidates for `\s+` (the space of the format string is compiled to
one-or-more whitespace), greedy: the longest match is tried first. -/
def candWsPlus (cs : List Char) : List (List Char) :=
  let k := (cs.takeWhile isWs).length
  (List.range k).map (fun i => cs.drop (k - i))

/-- Backtracking over an ordered candidate list: the continuation is tried
on each alternative in order and the first success wins, exactly the
behaviour of regex alternation. -/
def tryAll {α β : Type} (k : α → Option β) : List α → Option β
  | [] => none
  | a :: rest =>
    match k a with
    | some b => some b
    | none => tryAll k rest

/-- The regex compiled by `_strptime` for `%Y-%m-%d %H:%M:%S`, matched at
the start of the input with full backtracking; returns the captured fields
and the unconsumed rest of the input. -/
def matchDateTime (cs : List Char) : Option (DateTime × List Char) :=
  tryAll (fun py =>
    tryAll (fun r1 =>
      tryAll (fun pm =>
        tryAll (fun r2 =>
          tryAll (fun pd =>
            tryAll (fun r3 =>
              tryAll (fun pH =>
                tryAll (fun r4 =>
                  tryAll (fun pM =>
                    tryAll (fun r5 =>
                      tryAll (fun pS =>
                        some (⟨py.1, pm.1, pd.1, pH.1, pM.1, pS.1⟩, pS.2))
                        (candS r5))
                      (candLit ':' pM.2))
                    (candM r4))
                  (candLit ':' pH.2))
                (candH r3))
              (candWsPlus pd.2))
            (candd r2))
          (candLit '-' pm.2))
        (candm r1))
      (candLit '-' py.2))
    (candY cs)

/-- Gregorian leap-year rule, as used by `datetime`. -/
def isLeap (y : Nat) : Bool := y % 4 == 0 && (y % 100 != 0 || y % 400 == 0)

/-- Number of days of a month, as validated by the `datetime` constructor. -/
def daysInMonth (y m : Nat) : Nat :=
  if m = 2 then (if isLeap y then 29 else 28)
  else if m = 4 ∨ m = 6 ∨ m = 9 ∨ m = 11 then 30
  else 31

/-- The range checks of the `datetime` constructor (`MINYEAR = 1`,
`MAXYEAR = 9999`, day checked against the month, seconds at most 59). -/
def validDateTime (d : DateTime) : Bool :=
  decide (1 ≤ d.year ∧ d.year ≤ 9999 ∧ 1 ≤ d.month ∧ d.month ≤ 12 ∧
    1 ≤ d.day ∧ d.day ≤ daysInMonth d.year d.month ∧
    d.hour ≤ 23 ∧ d.minute ≤ 59 ∧ d.second ≤ 59)

/-- Model of `datetime.strptime(cs, "%Y-%m-%d %H:%M:%S")`: the regex must
match, the whole input must be consumed (otherwise `_strptime` reports
unconverted data), and the captured values must pass the `datetime`
constructor checks.  `none` models the raised `ValueError`. -/
def strptime (cs : List Char) : Option DateTime :=
  match matchDateTime cs with
  | none => none
  | some (d, rest) =>
    if rest = [] then (if validDateTime d then some d else none) else none

/-- The three `ValueError` cases of `parse_log_line`. -/
inductive ParseFailure
  | incompleteColumns
  | invalidTimestamp
  | invalidLevel
deriving DecidableEq

/-- The dict returned by `parse_log_line`. -/
structure LogRecord where
  datetime : DateTime
  level : List Char
  message : List Char
deriving DecidableEq

/-- Result of `parse_log_line`: the returned dict or the raised
`ValueError`, classified. -/
inductive ParseResult
  | ok (r : LogRecord)
  | err (e : ParseFailure)
deriving DecidableEq

/-- Whether a parse succeeded. -/
def ParseResult.isOk : ParseResult → Bool
  | .ok _ => true
  | .err _ => false

/-- The record of a successful parse. -/
def ParseResult.toOption : ParseResult → Option LogRecord
  | .ok r => some r
  | .err _ => none

/-- `LOG_LEVELS` from `core.py` (the same four strings appear literally in
the membership test of `parse_log_line`). -/
def LOG_LEVELS : List (List Char) :=
  ["DEBUG".toList, "INFO".toList, "WARNING".toList, "ERROR".toList]

/-- Model of `line.rstrip("\r\n")`: remove every trailing carriage return
or newline character. -/
def rstripCRLF (cs : List Char) : List Char :=
  (cs.reverse.dropWhile (fun c => c == '\r' || c == '\n')).reverse

/-- `parse_log_line` from `core.py`: strip trailing newline characters,
split into at most `LOG_COLUMN_COUNT` tokens, then check the column count,
the timestamp of the first two tokens joined by one space, and the level
token, in that order. -/
def parse_log_line (line : List Char) : ParseResult :=
  match pySplit (LOG_COLUMN_COUNT - 1) (rstripCRLF line) with
  | t0 :: t1 :: t2 :: t3 :: _ =>
    match strptime (t0 ++ ' ' :: t1) with
    | none => .err .invalidTimestamp
    | some dt =>
      if t2 ∈ LOG_LEVELS then .ok ⟨dt, t2, t3⟩
      else .err .invalidLevel
  | _ => .err .incompleteColumns

/-- What opening `file_path` yields: the open call fails (`OSError`), the
strict UTF-8 decoding fails at some point of the read (after an already
decoded prefix), or the whole decoded text stream. -/
inductive FileInput
  | unreadable
  | badEncoding (decodedPrefix : List Char)
  | readable (content : List Char)
deriving DecidableEq

/-- Outcome of `load_logs`.  `osError` is the re-raised
`OSError("File ... can\x27t be read.")`.  `typeError` models the
bad-encoding branch: the handler runs
`raise UnicodeDecodeError(f"File ... has wrong UTF-8 encoding.")`, but the
`UnicodeDecodeError` constructor requires five arguments, so this call
itself raises `TypeError` (losing the path) instead of the intended
exception. -/
inductive LoadResult
  | ok (records : List LogRecord) (warnings : List (Nat × ParseFailure))
  | osError (path : List Char)
  | typeError
deriving DecidableEq

/-- The read loop of `load_logs`: parse each line, collect the records of
the successful parses in order, and record a warning `(line_number,
reason)` for each failed parse; `n` is the number of the first line of
`ls`. -/
def processLines : Nat → List (List Char) → List LogRecord × List (Nat × ParseFailure)
  | _, [] => ([], [])
  | n, l :: ls =>
    let rest := processLines (n + 1) ls
    match parse_log_line l with
    | .ok r => (r :: rest.1, rest.2)
    | .err e => (rest.1, (n, e) :: rest.2)

/-- `load_logs` from `core.py`.  The `try` block encloses the whole read
loop, so a decode failure discards every record accumulated so far; see
`LoadResult` for the two fatal branches. -/
def load_logs (path : List Char) (f : FileInput) : LoadResult :=
  match f with
  | .unreadable => .osError path
  | .badEncoding _ => .typeError
  | .readable content =>
    let p := processLines 1 (readLines content)
    .ok p.1 p.2

/-- One step of the `defaultdict(int)` aggregation: increment the count of
`k` in place, or append `(k, 1)` on first occurrence (dict insertion order
is first-occurrence order, modelled by an association list). -/
def incr (m : List (List Char × Nat)) (k : List Char) : List (List Char × Nat) :=
  match m with
  | [] => [(k, 1)]
  | (q, v) :: rest => if q = k then (q, v + 1) :: rest else (q, v) :: incr rest k

/-- `count_logs_by_level` from `core.py`. -/
def count_logs_by_level (logs : List LogRecord) : List (List Char × Nat) :=
  logs.foldl (fun m r => incr m r.level) []

/-- `filter_logs_by_level` from `core.py`. -/
def filter_logs_by_level (logs : List LogRecord) (level : List Char) : List LogRecord :=
  logs.filter (fun r => r.level == level)

/-- Insert a row into an already processed row list so that rows with a
strictly larger count stay in front of it; together with `sortDesc` this is
the stable descending sort performed by
`sorted(counts.items(), key=lambda item: item[1], reverse=True)`
(Python sorts are stable, and `reverse=True` keeps equal keys in their
original order). -/
def insertDesc (x : List Char × Nat) : List (List Char × Nat) → List (List Char × Nat)
  | [] => [x]
  | y :: ys => if x.2 < y.2 then y :: insertDesc x ys else x :: y :: ys

/-- Stable sort of the count rows by count, descending. -/
def sortDesc : List (List Char × Nat) → List (List Char × Nat)
  | [] => []
  | x :: xs => insertDesc x (sortDesc xs)

/-- `COLUMN_NAMES` from `core.py`. -/
def COLUMN_NAMES : List (List Char) := ["Log Level".toList, "Count".toList]

/-- Model of `str.ljust`: pad with spaces on the right to width `w`. -/
def ljust (cs : List Char) (w : Nat) : List Char :=
  cs ++ List.replicate (w - cs.length) ' '

/-- Decimal rendering of a count (`str(count)`). -/
def natStr (n : Nat) : List Char := Nat.toDigits 10 n

/-- `display_log_counts` from `core.py`, returning the printed lines.
`none` models the crash on an empty mapping: the width computation
`max([len(x[0]) for x in counts])` raises `ValueError` on an empty
sequence, before anything is printed. -/
def display_log_counts (counts : List (List Char × Nat)) : Option (List (List Char)) :=
  match sortDesc counts with
  | [] => none
  | s0 :: srest =>
    let w := Nat.max "Log Level".toList.length
      (((s0 :: srest).map (fun p => p.1.length)).foldl Nat.max 0) + 1
    some (
      (ljust "Log Level".toList w ++ "│ ".toList ++ "Count".toList) ::
      (List.replicate w '─' ++ "┼─".toList ++ List.replicate "Count".toList.length '─') ::
      (s0 :: srest).map (fun p => ljust p.1 w ++ "│ ".toList ++ natStr p.2))

/-- Result of `parse_args`: the `(file_path, level)` tuple or the raised
`ValueError` message.  The level slot holds `none` when the argument is
missing (Python `None`), `some []` when it is the empty string (which the
truthiness test `if args[1]:` lets through unvalidated), and the
uppercased level otherwise. -/
inductive ArgsResult
  | ok (filePath : List Char) (level : Option (List Char))
  | err (msg : List Char)
deriving DecidableEq

/-- `ARGS_MIN_COUNT` from `main.py`. -/
def ARGS_MIN_COUNT : Nat := 1

/-- `ARGS_MAX_COUNT` from `main.py`. -/
def ARGS_MAX_COUNT : Nat := 2

/-- Model of `str.upper` on ASCII input. -/
def pyUpper (cs : List Char) : List Char := cs.map Char.toUpper

/-- `parse_args` from `main.py`. -/
def parse_args (argv : List (List Char)) : ArgsResult :=
  let args := argv.drop 1
  if args.length < ARGS_MIN_COUNT ∨ ARGS_MAX_COUNT < args.length then
    .err "Wrong number of arguments.".toList
  else
    match args with
    | [fp] => .ok fp none
    | [fp, lvl] =>
      if lvl ≠ [] then
        (if pyUpper lvl ∈ LOG_LEVELS then .ok fp (some (pyUpper lvl))
         else .err "Log level value is invalid.".toList)
      else .ok fp (some [])
    | _ => .err "Wrong number of arguments.".toList

/-- `MSG_HELP` from `main.py`. -/
def MSG_HELP : List Char :=
  ("USAGE:\n    python main.py <file_path> [ <level> ]\n\nDESCRIPTION:\n    This script parses log file from the 1st argument and prints record count statistics by level.\n    If 2nd \"level\" argument is provided then script additionally outputs log records filtered by provided level value.\n    File `test.log` is shipped together with this script for testing purposes.").toList

/-- Zero-padded decimal of width `w`, for the strftime-style directives. -/
def padZero (w : Nat) (n : Nat) : List Char :=
  List.replicate (w - (natStr n).length) '0' ++ natStr n

/-- Rendering of a record timestamp under `DATETIME_FORMAT` in the detail
view of `main`. -/
def formatDateTime (d : DateTime) : List Char :=
  padZero 4 d.year ++ '-' :: padZero 2 d.month ++ '-' :: padZero 2 d.day ++
  ' ' :: padZero 2 d.hour ++ ':' :: padZero 2 d.minute ++ ':' :: padZero 2 d.second

/-- Outcome of one program run.  `finished` is a normal return of `main`
with the printed standard output and the returned value; `crashed` is an
exception escaping `main` (the process then dies with a traceback and a
non-zero status). -/
inductive RunResult
  | finished (stdout : List (List Char)) (ret : Int)
  | crashed (stdout : List (List Char))
deriving DecidableEq

/-- `main` from `main.py`, as a function of the argument vector and of what
opening the requested file yields.  Warnings of the loader go through the
`logging` module, not standard output, and are not part of `stdout`. -/
def main (argv : List (List Char)) (file : FileInput) : RunResult :=
  match parse_args argv with
  | .err e =>
    .finished ["ERROR: ".toList ++ e ++ " Try again.\n\n".toList ++ MSG_HELP] (-1)
  | .ok file_path level =>
    match load_logs file_path file with
    | .osError p =>
      .finished ["ERROR: File `".toList ++ p ++ "` can\x27t be read.".toList] (-1)
    | .typeError => .crashed []
    | .ok records _ =>
      match display_log_counts (count_logs_by_level records) with
      | none => .crashed []
      | some table =>
        match level with
        | some l =>
          if l ≠ [] then
            .finished (table ++
              ("\nLog details for the level \x27".toList ++ l ++ "\x27:".toList) ::
              (filter_logs_by_level records l).map
                (fun r => formatDateTime r.datetime ++ " - ".toList ++ r.message)) 0
          else .finished table 0
        | none => .finished table 0

/-- Exit status of the process for a run outcome.  The script calls
`main()` at top level without passing the returned value to `sys.exit`, so
a normal return always exits with status 0; only an uncaught exception
gives a non-zero status. -/
def processExit : RunResult → Nat
  | .finished _ _ => 0
  | .crashed _ => 1

/-- The levels of a record list in first-occurrence order (the enumeration
order of the aggregation dict). -/
def firstOccur (ls : List (List Char)) : List (List Char) :=
  ls.foldl (fun acc l => if l ∈ acc then acc else acc ++ [l]) []

/-- Sum of the counts of a count mapping. -/
def sumVals (m : List (List Char × Nat)) : Nat := (m.map Prod.snd).sum

theorem sumVals_nil : sumVals [] = 0 := rfl

theorem sumVals_cons (p : List Char × Nat) (m : List (List Char × Nat)) :
    sumVals (p :: m) = p.2 + sumVals m := by
  simp [sumVals]

theorem sumVals_incr (m : List (List Char × Nat)) (k : List Char) :
    sumVals (incr m k) = sumVals m + 1 := by
  induction m with
  | nil => simp [incr, sumVals]
  | cons p rest ih =>
    obtain ⟨q, v⟩ := p
    by_cases h : q = k
    · simp [incr, h, sumVals_cons]
      omega
    · simp only [incr, if_neg h, sumVals_cons, ih]
      omega

theorem incr_pos (m : List (List Char × Nat)) (k : List Char)
    (h : ∀ p ∈ m, 0 < p.2) : ∀ p ∈ incr m k, 0 < p.2 := by
  induction m with
  | nil =>
    intro p hp
    simp [incr] at hp
    simp [hp]
  | cons q rest ih =>
    obtain ⟨q1, v⟩ := q
    intro p hp
    by_cases hq : q1 = k
    · simp only [incr, if_pos hq] at hp
      rcases List.mem_cons.mp hp with rfl | hp'
      · simp
      · exact h p (List.mem_cons_of_mem _ hp')
    · simp only [incr, if_neg hq] at hp
      rcases List.mem_cons.mp hp with rfl | hp'
      · exact h (q1, v) (List.mem_cons_self _ _)
      · exact ih (fun p hp => h p (List.mem_cons_of_mem _ hp)) p hp'

theorem count_fold_sum (logs : List LogRecord) :
    ∀ m, sumVals (logs.foldl (fun m r => incr m r.level) m) = sumVals m + logs.length := by
  induction logs with
  | nil => intro m; simp
  | cons r rest ih =>
    intro m
    simp only [List.foldl_cons, List.length_cons, ih, sumVals_incr]
    omega

theorem count_fold_pos (logs : List LogRecord) :
    ∀ m, (∀ p ∈ m, 0 < p.2) →
      ∀ p ∈ logs.foldl (fun m r => incr m r.level) m, 0 < p.2 := by
  induction logs with
  | nil => intro m hm; exact hm
  | cons r rest ih =>
    intro m hm
    exact ih (incr m r.level) (incr_pos m r.level hm)

/-- Claim C8: for every record sequence, the aggregated counts sum to the
length of the sequence, and no level is present with count zero. -/
theorem count_logs_sum_and_pos (logs : List LogRecord) :
    sumVals (count_logs_by_level logs) = logs.length ∧
    ∀ p ∈ count_logs_by_level logs, 0 < p.2 := by
  constructor
  · simpa [sumVals_nil] using count_fold_sum logs []
  · exact count_fold_pos logs [] (by simp)

/-- Witness for C8 at a concrete one-record input. -/
theorem count_logs_sum_and_pos_witness :
    sumVals (count_logs_by_level [⟨⟨2024, 1, 1, 10, 0, 0⟩, "INFO".toList, "ok".toList⟩]) =
      [(⟨⟨2024, 1, 1, 10, 0, 0⟩, "INFO".toList, "ok".toList⟩ : LogRecord)].length ∧
    0 < (("INFO".toList, 1) : List Char × Nat).2 :=
  ⟨(count_logs_sum_and_pos [⟨⟨2024, 1, 1, 10, 0, 0⟩, "INFO".toList, "ok".toList⟩]).1,
   (count_logs_sum_and_pos [⟨⟨2024, 1, 1, 10, 0, 0⟩, "INFO".toList, "ok".toList⟩]).2
     ("INFO".toList, 1) (by decide)⟩

theorem mem_insertDesc {x z : List Char × Nat} {l : List (List Char × Nat)} :
    z ∈ insertDesc x l ↔ z = x ∨ z ∈ l := by
  induction l with
  | nil => simp [insertDesc]
  | cons y ys ih =>
    by_cases h : x.2 < y.2
    · simp only [insertDesc, if_pos h, List.mem_cons, ih]
      tauto
    · simp only [insertDesc, if_neg h, List.mem_cons]

theorem pairwise_insertDesc (x : List Char × Nat) (l : List (List Char × Nat))
    (h : List.Pairwise (fun a b => b.2 ≤ a.2) l) :
    List.Pairwise (fun a b => b.2 ≤ a.2) (insertDesc x l) := by
  induction l with
  | nil => simp [insertDesc]
  | cons y ys ih =>
    rcases List.pairwise_cons.mp h with ⟨hy, hys⟩
    by_cases hc : x.2 < y.2
    · rw [insertDesc, if_pos hc]
      refine List.pairwise_cons.mpr ⟨?_, ih hys⟩
      intro z hz
      rcases mem_insertDesc.mp hz with rfl | hz'
      · exact Nat.le_of_lt hc
      · exact hy z hz'
    · rw [insertDesc, if_neg hc]
      refine List.pairwise_cons.mpr ⟨?_, h⟩
      intro z hz
      rcases List.mem_cons.mp hz with rfl | hz'
      · exact Nat.le_of_not_lt hc
      · exact Nat.le_trans (hy z hz') (Nat.le_of_not_lt hc)

theorem sortDesc_pairwise (l : List (List Char × Nat)) :
    List.Pairwise (fun a b => b.2 ≤ a.2) (sortDesc l) := by
  induction l with
  | nil => simp [sortDesc]
  | cons x xs ih => exact pairwise_insertDesc x (sortDesc xs) ih

theorem insertDesc_perm (x : List Char × Nat) (l : List (List Char × Nat)) :
    (insertDesc x l).Perm (x :: l) := by
  induction l with
  | nil => simp [insertDesc]
  | cons y ys ih =>
    by_cases h : x.2 < y.2
    · rw [insertDesc, if_pos h]
      exact (ih.cons y).trans (List.Perm.swap x y ys)
    · rw [insertDesc, if_neg h]

theorem sortDesc_perm (l : List (List Char × Nat)) : (sortDesc l).Perm l := by
  induction l with
  | nil => simp [sortDesc]
  | cons x xs ih => exact (insertDesc_perm x (sortDesc xs)).trans (ih.cons x)

theorem filter_insertDesc (x : List Char × Nat) (l : List (List Char × Nat)) (n : Nat) :
    (insertDesc x l).filter (fun p => p.2 == n) =
      (if x.2 = n then [x] else []) ++ l.filter (fun p => p.2 == n) := by
  induction l with
  | nil =>
    by_cases h : x.2 = n <;> simp [insertDesc, List.filter_cons, h]
  | cons y ys ih =>
    by_cases hc : x.2 < y.2
    · rw [insertDesc, if_pos hc]
      by_cases hy : y.2 = n
      · have hx : ¬ x.2 = n := by omega
        simp [List.filter_cons, hy, hx, ih]
      · simp [List.filter_cons, hy, ih]
    · rw [insertDesc, if_neg hc]
      by_cases hx : x.2 = n <;> simp [List.filter_cons, hx]

theorem filter_sortDesc (l : List (List Char × Nat)) (n : Nat) :
    (sortDesc l).filter (fun p => p.2 == n) = l.filter (fun p => p.2 == n) := by
  induction l with
  | nil => simp [sortDesc]
  | cons x xs ih =>
    rw [sortDesc, filter_insertDesc, ih, List.filter_cons]
    by_cases hx : x.2 = n <;> simp [hx]

theorem keys_incr (m : List (List Char × Nat)) (k : List Char) :
    (incr m k).map Prod.fst =
      if k ∈ m.map Prod.fst then m.map Prod.fst else m.map Prod.fst ++ [k] := by
  induction m with
  | nil => simp [incr]
  | cons p rest ih =>
    obtain ⟨q, v⟩ := p
    by_cases hq : q = k
    · subst hq
      simp [incr]
    · have hne : ¬ k = q := fun h => hq h.symm
      simp only [incr, if_neg hq, List.map_cons, List.mem_cons, hne, false_or, ih]
      by_cases hk : k ∈ rest.map Prod.fst <;> simp [hk]

theorem keys_count_fold (logs : List LogRecord) :
    ∀ m, (logs.foldl (fun m r => incr m r.level) m).map Prod.fst =
      (logs.map LogRecord.level).foldl
        (fun acc l => if l ∈ acc then acc else acc ++ [l]) (m.map Prod.fst) := by
  induction logs with
  | nil => intro m; rfl
  | cons r rest ih =>
    intro m
    simp only [List.foldl_cons, List.map_cons, ih, keys_incr]

/-- Claim C3: the summary rows produced from any record sequence are sorted
by count descending (`Pairwise`), the sort is a permutation that is stable
(for every count value, the rows carrying that count appear exactly in the
order of the aggregated mapping), and the aggregated mapping enumerates the
levels in first-occurrence order of the input records — so equal counts are
ordered by first occurrence, never alphabetically. -/
theorem summary_rows_sorted_and_stable (logs : List LogRecord) :
    List.Pairwise (fun a b : List Char × Nat => b.2 ≤ a.2)
      (sortDesc (count_logs_by_level logs)) ∧
    (∀ n : Nat, (sortDesc (count_logs_by_level logs)).filter (fun p => p.2 == n) =
      (count_logs_by_level logs).filter (fun p => p.2 == n)) ∧
    (sortDesc (count_logs_by_level logs)).Perm (count_logs_by_level logs) ∧
    (count_logs_by_level logs).map Prod.fst = firstOccur (logs.map LogRecord.level) := by
  refine ⟨sortDesc_pairwise _, fun n => filter_sortDesc _ n, sortDesc_perm _, ?_⟩
  exact keys_count_fold logs []

theorem processLines_spec (ls : List (List Char)) :
    ∀ n, processLines n ls =
      (ls.filterMap (fun l => (parse_log_line l).toOption),
       (List.enumFrom n ls).filterMap
         (fun il => match parse_log_line il.2 with
                    | .ok _ => none
                    | .err e => some (il.1, e))) := by
  induction ls with
  | nil => intro n; rfl
  | cons l ls ih =>
    intro n
    simp only [processLines, List.filterMap_cons, List.enumFrom, ih (n + 1)]
    cases h : parse_log_line l with
    | ok r => simp [h, ParseResult.toOption]
    | err e => simp [h, ParseResult.toOption]

/-- Claim C6: loading a readable, decodable file never aborts: it returns
exactly the records of the lines that parse, in file order, together with
one warning per failed line carrying its 1-based line number and the
failure reason. -/
theorem load_logs_warn_and_skip (path content : List Char) :
    load_logs path (FileInput.readable content) =
      LoadResult.ok
        ((readLines content).filterMap (fun l => (parse_log_line l).toOption))
        ((List.enumFrom 1 (readLines content)).filterMap
          (fun il => match parse_log_line il.2 with
                     | .ok _ => none
                     | .err e => some (il.1, e))) := by
  simp only [load_logs, processLines_spec]

/-- Claim C9: rendering an empty counts mapping fails instead of printing
a table (`max` over an empty sequence of level-name lengths raises
`ValueError`), and `main` does not catch it: a run over a file in which no
line parses crashes with no output. -/
theorem empty_counts_render_crash (a p content : List Char)
    (h : ∀ l ∈ readLines content, (parse_log_line l).isOk = false) :
    display_log_counts [] = none ∧
    main [a, p] (FileInput.readable content) = RunResult.crashed [] := by
  refine ⟨rfl, ?_⟩
  have hrec : (readLines content).filterMap (fun l => (parse_log_line l).toOption) = [] := by
    rw [List.filterMap_eq_nil_iff]
    intro l hl
    have := h l hl
    cases hp : parse_log_line l with
    | ok r => rw [hp] at this; simp [ParseResult.isOk] at this
    | err e => rfl
  have hargs : parse_args [a, p] = ArgsResult.ok p none := rfl
  simp only [main, hargs, load_logs_warn_and_skip, hrec]
  rfl

/-- Witness for C9: a file whose only line is malformed. -/
theorem empty_counts_render_crash_witness :
    display_log_counts [] = none ∧
    main ["main.py".toList, "x.log".toList] (FileInput.readable "bad\n".toList) =
      RunResult.crashed [] :=
  empty_counts_render_crash "main.py".toList "x.log".toList "bad\n".toList (by decide)

/-- Claim C4: every line is classified by exactly the checks of
`parse_log_line`, in their order: `IncompleteColumns` exactly when the
bounded split yields fewer than four tokens; otherwise `InvalidTimestamp`
exactly when the first two tokens joined by one space do not parse under
the fixed format; otherwise `InvalidLevel` exactly when the third token is
not an exact member of the four levels; otherwise success — and every
line lands in one of these four outcomes. -/
theorem parse_log_line_classification (line : List Char) :
    (parse_log_line line = .err .incompleteColumns ↔
      (pySplit (LOG_COLUMN_COUNT - 1) (rstripCRLF line)).length < LOG_COLUMN_COUNT) ∧
    (∀ t0 t1 t2 t3 rest,
      pySplit (LOG_COLUMN_COUNT - 1) (rstripCRLF line) = t0 :: t1 :: t2 :: t3 :: rest →
      (parse_log_line line = .err .invalidTimestamp ↔ strptime (t0 ++ ' ' :: t1) = none) ∧
      (∀ dt, strptime (t0 ++ ' ' :: t1) = some dt →
        (parse_log_line line = .err .invalidLevel ↔ t2 ∉ LOG_LEVELS) ∧
        (t2 ∈ LOG_LEVELS → parse_log_line line = .ok ⟨dt, t2, t3⟩))) ∧
    (parse_log_line line = .err .incompleteColumns ∨
     parse_log_line line = .err .invalidTimestamp ∨
     parse_log_line line = .err .invalidLevel ∨
     ∃ r, parse_log_line line = .ok r) := by
  rcases hs : pySplit (LOG_COLUMN_COUNT - 1) (rstripCRLF line) with
    _ | ⟨t0, _ | ⟨t1, _ | ⟨t2, _ | ⟨t3, rest⟩⟩⟩⟩
  case nil =>
    have hp : parse_log_line line = .err .incompleteColumns := by
      unfold parse_log_line; rw [hs]
    refine ⟨⟨fun _ => by decide, fun _ => hp⟩, ?_, Or.inl hp⟩
    intro a b c d r h4
    simp at h4
  case cons.nil =>
    have hp : parse_log_line line = .err .incompleteColumns := by
      unfold parse_log_line; rw [hs]
    refine ⟨⟨fun _ => by simp [LOG_COLUMN_COUNT], fun _ => hp⟩, ?_, Or.inl hp⟩
    intro a b c d r h4
    simp at h4
  case cons.cons.nil =>
    have hp : parse_log_line line = .err .incompleteColumns := by
      unfold parse_log_line; rw [hs]
    refine ⟨⟨fun _ => by simp [LOG_COLUMN_COUNT], fun _ => hp⟩, ?_, Or.inl hp⟩
    intro a b c d r h4
    simp at h4
  case cons.cons.cons.nil =>
    have hp : parse_log_line line = .err .incompleteColumns := by
      unfold parse_log_line; rw [hs]
    refine ⟨⟨fun _ => by simp [LOG_COLUMN_COUNT], fun _ => hp⟩, ?_, Or.inl hp⟩
    intro a b c d r h4
    simp at h4
  case cons.cons.cons.cons =>
    have hlen : ¬ (t0 :: t1 :: t2 :: t3 :: rest).length < LOG_COLUMN_COUNT := by
      simp only [List.length_cons, LOG_COLUMN_COUNT]
      omega
    have hp : parse_log_line line =
        (match strptime (t0 ++ ' ' :: t1) with
         | none => .err .invalidTimestamp
         | some dt =>
           if t2 ∈ LOG_LEVELS then .ok ⟨dt, t2, t3⟩ else .err .invalidLevel) := by
      unfold parse_log_line; rw [hs]
    cases hst : strptime (t0 ++ ' ' :: t1) with
    | none =>
      rw [hst] at hp
      have hp2 : parse_log_line line = ParseResult.err ParseFailure.invalidTimestamp := hp
      refine ⟨⟨fun h => absurd (hp2.symm.trans h) (by decide), fun h => absurd h hlen⟩,
        ?_, Or.inr (Or.inl hp2)⟩
      intro a b c d r h4
      simp only [List.cons.injEq] at h4
      obtain ⟨rfl, rfl, rfl, rfl, rfl⟩ := h4
      refine ⟨⟨fun _ => hst, fun _ => hp2⟩, fun dt hdt => ?_⟩
      rw [hst] at hdt
      cases hdt
    | some dt =>
      rw [hst] at hp
      have hp2 : parse_log_line line =
          (if t2 ∈ LOG_LEVELS then ParseResult.ok ⟨dt, t2, t3⟩
           else ParseResult.err ParseFailure.invalidLevel) := hp
      by_cases hl : t2 ∈ LOG_LEVELS
      · rw [if_pos hl] at hp2
        refine ⟨⟨fun h => absurd (hp2.symm.trans h) (by simp), fun h => absurd h hlen⟩,
          ?_, Or.inr (Or.inr (Or.inr ⟨_, hp2⟩))⟩
        intro a b c d r h4
        simp only [List.cons.injEq] at h4
        obtain ⟨rfl, rfl, rfl, rfl, rfl⟩ := h4
        refine ⟨⟨fun h => absurd (hp2.symm.trans h) (by simp), fun hn => ?_⟩,
          fun dt' hdt' => ?_⟩
        · rw [hst] at hn; cases hn
        · rw [hst] at hdt'
          injection hdt' with h
          subst h
          exact ⟨⟨fun h => absurd (hp2.symm.trans h) (by simp), fun hn => absurd hl hn⟩,
            fun _ => hp2⟩
      · rw [if_neg hl] at hp2
        refine ⟨⟨fun h => absurd (hp2.symm.trans h) (by decide), fun h => absurd h hlen⟩,
          ?_, Or.inr (Or.inr (Or.inl hp2))⟩
        intro a b c d r h4
        simp only [List.cons.injEq] at h4
        obtain ⟨rfl, rfl, rfl, rfl, rfl⟩ := h4
        refine ⟨⟨fun h => absurd (hp2.symm.trans h) (by decide), fun hn => ?_⟩,
          fun dt' hdt' => ?_⟩
        · rw [hst] at hn; cases hn
        · rw [hst] at hdt'
          injection hdt' with h
          subst h
          exact ⟨⟨fun _ => hl, fun _ => hp2⟩, fun hmem => absurd hmem hl⟩

/-- Witness for C4: the sample malformed line is classified as
`IncompleteColumns`. -/
theorem parse_log_line_classification_witness :
    parse_log_line "bad line".toList = .err .incompleteColumns :=
  (parse_log_line_classification "bad line".toList).1.mpr (by decide)

theorem dropWhile_head_false {p : Char → Bool} : ∀ {cs : List Char} {c : Char}
    {t : List Char}, cs.dropWhile p = c :: t → p c = false := by
  intro cs
  induction cs with
  | nil => intro c t h; simp [List.dropWhile] at h
  | cons a l ih =>
    intro c t h
    rw [List.dropWhile_cons] at h
    by_cases hp : p a = true
    · rw [if_pos hp] at h
      exact ih h
    · rw [if_neg hp] at h
      obtain ⟨rfl, rfl⟩ := List.cons.injEq .. |>.mp h |>.imp id id
      simpa using hp

theorem lenDropWhile_le (p : Char → Bool) : ∀ (l : List Char),
    (l.dropWhile p).length ≤ l.length := by
  intro l
  induction l with
  | nil => simp
  | cons a t ih =>
    rw [List.dropWhile_cons]
    by_cases hp : p a = true
    · simp only [if_pos hp, List.length_cons]
      exact Nat.le_succ_of_le ih
    · simp [hp]

theorem splitRest_lt (cs : List Char) (h : cs.dropWhile isWs ≠ []) :
    ((cs.dropWhile isWs).dropWhile notWs).length < cs.length := by
  rcases hcs : cs.dropWhile isWs with _ | ⟨c, t⟩
  · exact absurd hcs h
  · have hc : isWs c = false := dropWhile_head_false hcs
    have hcn : notWs c = true := by simp [notWs, hc]
    have h1 : ((c :: t).dropWhile notWs).length ≤ t.length := by
      rw [List.dropWhile_cons, if_pos hcn]
      exact lenDropWhile_le notWs t
    have h2 : (c :: t).length ≤ cs.length := by
      rw [← hcs]
      exact lenDropWhile_le isWs cs
    simp only [List.length_cons] at h2
    omega

theorem pySplitAux_fuel : ∀ (f : Nat), ∀ (msp : Nat) (cs : List Char), cs.length < f →
    pySplitAux f msp cs = pySplitAux (cs.length + 1) msp cs := by
  intro f
  induction f using Nat.strong_induction_on with
  | _ f ih =>
    intro msp cs hf
    cases f with
    | zero => exact absurd hf (by omega)
    | succ g =>
      simp only [pySplitAux]
      by_cases h0 : cs.dropWhile isWs = []
      · simp [h0]
      · simp only [if_neg h0]
        by_cases hm : msp = 0
        · simp [hm]
        · simp only [if_neg hm]
          have hX := splitRest_lt cs h0
          congr 1
          rw [ih g (by omega) (msp - 1) _ (by omega),
            ih cs.length (by omega) (msp - 1) _ hX]

theorem pySplit_eq (msp : Nat) (cs : List Char) :
    pySplit msp cs =
      if cs.dropWhile isWs = [] then []
      else if msp = 0 then [cs.dropWhile isWs]
      else (cs.dropWhile isWs).takeWhile notWs ::
        pySplit (msp - 1) ((cs.dropWhile isWs).dropWhile notWs) := by
  unfold pySplit
  simp only [pySplitAux]
  by_cases h0 : cs.dropWhile isWs = []
  · simp [h0]
  · simp only [if_neg h0]
    by_cases hm : msp = 0
    · simp [hm]
    · simp only [if_neg hm]
      congr 1
      exact pySplitAux_fuel cs.length (msp - 1) _ (splitRest_lt cs h0)

theorem pySplit_length_le : ∀ (msp : Nat) (cs : List Char),
    (pySplit msp cs).length ≤ msp + 1 := by
  intro msp
  induction msp with
  | zero =>
    intro cs
    rw [pySplit_eq]
    by_cases h0 : cs.dropWhile isWs = [] <;> simp [h0]
  | succ k ih =>
    intro cs
    rw [pySplit_eq]
    by_cases h0 : cs.dropWhile isWs = []
    · simp [h0]
    · simp only [if_neg h0, if_neg (Nat.succ_ne_zero k), List.length_cons,
        Nat.add_sub_cancel]
      have := ih ((cs.dropWhile isWs).dropWhile notWs)
      omega

theorem dropWhile_suffix_self (p : Char → Bool) : ∀ (l : List Char),
    l.dropWhile p <:+ l := by
  intro l
  induction l with
  | nil => simp
  | cons a t ih =>
    rw [List.dropWhile_cons]
    by_cases hp : p a = true
    · simp only [if_pos hp]
      exact ih.trans (List.suffix_cons a t)
    · simp [hp]

theorem pySplit_last_suffix : ∀ (msp : Nat) (cs : List Char) (ts : List (List Char))
    (m : List Char), pySplit msp cs = ts ++ [m] → ts.length = msp → m <:+ cs := by
  intro msp
  induction msp with
  | zero =>
    intro cs ts m h hlen
    have hts : ts = [] := List.length_eq_zero.mp hlen
    subst hts
    rw [pySplit_eq] at h
    by_cases h0 : cs.dropWhile isWs = []
    · rw [if_pos h0] at h
      simp at h
    · rw [if_neg h0, if_pos rfl] at h
      simp only [List.nil_append, List.cons.injEq, and_true] at h
      rw [← h]
      exact dropWhile_suffix_self isWs cs
  | succ k ih =>
    intro cs ts m h hlen
    rw [pySplit_eq] at h
    by_cases h0 : cs.dropWhile isWs = []
    · rw [if_pos h0] at h
      exact absurd h.symm (by simp)
    · rw [if_neg h0, if_neg (Nat.succ_ne_zero k)] at h
      cases ts with
      | nil => simp at hlen
      | cons t ts' =>
        simp only [List.cons_append, List.cons.injEq, Nat.add_sub_cancel] at h
        obtain ⟨-, h2⟩ := h
        simp only [List.length_cons, Nat.add_right_cancel_iff] at hlen
        have hsuf : m <:+ (cs.dropWhile isWs).dropWhile notWs := ih _ ts' m h2 hlen
        exact hsuf.trans ((dropWhile_suffix_self notWs _).trans
          (dropWhile_suffix_self isWs cs))

/-- Claim C7: every successful parse returns a record whose level is the
third token, whose timestamp is the date-time parsed from the first two
tokens joined by one space, and whose message is the fourth token, which is
a suffix of the newline-stripped line: the entire remainder after the first
three tokens and their separators, so it may itself contain spaces. -/
theorem parse_log_line_wellformed_fields (line : List Char) (r : LogRecord)
    (h : parse_log_line line = .ok r) :
    ∃ t0 t1 t2 t3,
      pySplit (LOG_COLUMN_COUNT - 1) (rstripCRLF line) = [t0, t1, t2, t3] ∧
      r.level = t2 ∧ r.message = t3 ∧
      strptime (t0 ++ ' ' :: t1) = some r.datetime ∧
      t2 ∈ LOG_LEVELS ∧
      t3 <:+ rstripCRLF line := by
  rcases hs : pySplit (LOG_COLUMN_COUNT - 1) (rstripCRLF line) with
    _ | ⟨t0, _ | ⟨t1, _ | ⟨t2, _ | ⟨t3, rest⟩⟩⟩⟩
  case nil =>
    have hp : parse_log_line line = .err .incompleteColumns := by
      unfold parse_log_line; rw [hs]
    exact absurd (hp.symm.trans h) (by simp)
  case cons.nil =>
    have hp : parse_log_line line = .err .incompleteColumns := by
      unfold parse_log_line; rw [hs]
    exact absurd (hp.symm.trans h) (by simp)
  case cons.cons.nil =>
    have hp : parse_log_line line = .err .incompleteColumns := by
      unfold parse_log_line; rw [hs]
    exact absurd (hp.symm.trans h) (by simp)
  case cons.cons.cons.nil =>
    have hp : parse_log_line line = .err .incompleteColumns := by
      unfold parse_log_line; rw [hs]
    exact absurd (hp.symm.trans h) (by simp)
  case cons.cons.cons.cons =>
    have hlen := pySplit_length_le (LOG_COLUMN_COUNT - 1) (rstripCRLF line)
    rw [hs] at hlen
    have hrest : rest = [] := by
      simp only [List.length_cons, LOG_COLUMN_COUNT] at hlen
      have : rest.length = 0 := by omega
      exact List.length_eq_zero.mp this
    subst hrest
    have hp : parse_log_line line =
        (match strptime (t0 ++ ' ' :: t1) with
         | none => .err .invalidTimestamp
         | some dt =>
           if t2 ∈ LOG_LEVELS then .ok ⟨dt, t2, t3⟩ else .err .invalidLevel) := by
      unfold parse_log_line; rw [hs]
    cases hst : strptime (t0 ++ ' ' :: t1) with
    | none =>
      rw [hst] at hp
      exact absurd (hp.symm.trans h) (by simp)
    | some dt =>
      rw [hst] at hp
      have hp2 : parse_log_line line =
          (if t2 ∈ LOG_LEVELS then ParseResult.ok ⟨dt, t2, t3⟩
           else ParseResult.err ParseFailure.invalidLevel) := hp
      by_cases hl : t2 ∈ LOG_LEVELS
      · rw [if_pos hl] at hp2
        have hr : r = ⟨dt, t2, t3⟩ := by
          have h3 := hp2.symm.trans h
          injection h3 with h3
          exact h3.symm
        subst hr
        refine ⟨t0, t1, t2, t3, rfl, rfl, rfl, hst, hl, ?_⟩
        exact pySplit_last_suffix (LOG_COLUMN_COUNT - 1) (rstripCRLF line)
          [t0, t1, t2] t3 (by rw [hs]; simp) rfl
      · rw [if_neg hl] at hp2
        exact absurd (hp2.symm.trans h) (by simp)

/-- Witness for C7 at a concrete well-formed line with an internal space in
the message. -/
theorem parse_log_line_wellformed_fields_witness :
    ∃ t0 t1 t2 t3,
      pySplit (LOG_COLUMN_COUNT - 1)
        (rstripCRLF "2024-01-01 10:00:00 INFO Starting service\n".toList) =
        [t0, t1, t2, t3] ∧
      (⟨⟨2024, 1, 1, 10, 0, 0⟩, "INFO".toList, "Starting service".toList⟩ :
        LogRecord).level = t2 ∧
      (⟨⟨2024, 1, 1, 10, 0, 0⟩, "INFO".toList, "Starting service".toList⟩ :
        LogRecord).message = t3 ∧
      strptime (t0 ++ ' ' :: t1) =
        some (⟨⟨2024, 1, 1, 10, 0, 0⟩, "INFO".toList, "Starting service".toList⟩ :
          LogRecord).datetime ∧
      t2 ∈ LOG_LEVELS ∧
      t3 <:+ rstripCRLF "2024-01-01 10:00:00 INFO Starting service\n".toList :=
  parse_log_line_wellformed_fields "2024-01-01 10:00:00 INFO Starting service\n".toList
    ⟨⟨2024, 1, 1, 10, 0, 0⟩, "INFO".toList, "Starting service".toList⟩ (by decide)

theorem takeLine_append : ∀ (n : Nat) (cs : List Char),
    (takeLine n cs).1 ++ (takeLine n cs).2 = cs := by
  intro n cs
  induction cs generalizing n with
  | nil => simp [takeLine]
  | cons c t ih =>
    simp only [takeLine]
    by_cases hn : n = 0
    · simp [hn]
    · by_cases hc : c = '\n'
      · simp [hn, hc]
      · simp [hn, hc, ih]

theorem takeLine_fst_length : ∀ (n : Nat) (cs : List Char),
    (takeLine n cs).1.length ≤ n := by
  intro n cs
  induction cs generalizing n with
  | nil => simp [takeLine]
  | cons c t ih =>
    simp only [takeLine]
    by_cases hn : n = 0
    · simp [hn]
    · by_cases hc : c = '\n'
      · simp only [if_neg hn, if_pos hc, List.length_cons, List.length_nil]
        omega
      · simp only [if_neg hn, if_neg hc, List.length_cons]
        have := ih (n - 1)
        omega

theorem takeLine_fst_ne (n : Nat) (c : Char) (t : List Char) (hn : n ≠ 0) :
    (takeLine n (c :: t)).1 ≠ [] := by
  simp only [takeLine]
  by_cases hc : c = '\n' <;> simp [hn, hc]

theorem takeLine_snd_length (n : Nat) (c : Char) (t : List Char) (hn : n ≠ 0) :
    (takeLine n (c :: t)).2.length ≤ t.length := by
  have happ := takeLine_append n (c :: t)
  have h1 : (takeLine n (c :: t)).1.length + (takeLine n (c :: t)).2.length
      = t.length + 1 := by
    rw [← List.length_append, happ]
    simp
  have h2 : (takeLine n (c :: t)).1 ≠ [] := takeLine_fst_ne n c t hn
  have h3 : 1 ≤ (takeLine n (c :: t)).1.length := by
    rcases hx : (takeLine n (c :: t)).1 with _ | ⟨a, b⟩
    · exact absurd hx h2
    · simp
  omega

theorem takeLine_no_newline : ∀ (n : Nat) (cs : List Char),
    (∀ c ∈ cs.take n, c ≠ '\n') →
    takeLine n cs = (cs.take n, cs.drop n) := by
  intro n cs
  induction cs generalizing n with
  | nil => intro h; simp [takeLine]
  | cons c t ih =>
    intro h
    cases n with
    | zero => simp [takeLine]
    | succ k =>
      have hc : c ≠ '\n' := h c (by simp)
      have ht : ∀ x ∈ t.take k, x ≠ '\n' := by
        intro x hx
        exact h x (by simp [List.take_succ_cons, hx])
      simp only [takeLine, List.take_succ_cons, List.drop_succ_cons]
      rw [if_neg (by omega), if_neg hc]
      have hk : k + 1 - 1 = k := by omega
      rw [hk, ih k ht]

theorem readLinesAux_congr : ∀ (f : Nat) (cs : List Char), cs.length ≤ f →
    readLinesAux f cs = readLinesAux cs.length cs := by
  intro f
  induction f using Nat.strong_induction_on with
  | _ f ih =>
    intro cs hf
    cases cs with
    | nil => cases f <;> rfl
    | cons c t =>
      cases f with
      | zero => simp at hf
      | succ g =>
        simp only [List.length_cons] at hf ⊢
        simp only [readLinesAux]
        have hlen := takeLine_snd_length LINE_MAX_SIZE c t (by decide)
        congr 1
        rw [ih g (by omega) _ (by omega), ih t.length (by omega) _ hlen]

theorem readLines_cons (cs : List Char) (h : cs ≠ []) :
    readLines cs =
      (takeLine LINE_MAX_SIZE cs).1 :: readLines (takeLine LINE_MAX_SIZE cs).2 := by
  obtain ⟨c, t, rfl⟩ := List.exists_cons_of_ne_nil h
  unfold readLines
  simp only [List.length_cons, readLinesAux]
  congr 1
  exact readLinesAux_congr t.length _ (takeLine_snd_length LINE_MAX_SIZE c t (by decide))

theorem readLines_join (cs : List Char) : (readLines cs).flatten = cs := by
  generalize hgen : cs.length = n
  induction n using Nat.strong_induction_on generalizing cs with
  | _ n ih =>
    cases hcs : cs with
    | nil => simp [readLines, readLinesAux]
    | cons c t =>
      subst hcs
      simp only [List.length_cons] at hgen
      rw [readLines_cons _ (by simp), List.flatten_cons]
      have h2 := takeLine_snd_length LINE_MAX_SIZE c t (by decide)
      rw [ih (takeLine LINE_MAX_SIZE (c :: t)).2.length (by omega) _ rfl]
      exact takeLine_append LINE_MAX_SIZE (c :: t)

theorem readLines_chunk_le (cs : List Char) :
    ∀ l ∈ readLines cs, l.length ≤ LINE_MAX_SIZE := by
  generalize hgen : cs.length = n
  induction n using Nat.strong_induction_on generalizing cs with
  | _ n ih =>
    cases hcs : cs with
    | nil => intro l hl; simp [readLines, readLinesAux] at hl
    | cons c t =>
      subst hcs
      simp only [List.length_cons] at hgen
      rw [readLines_cons _ (by simp)]
      intro l hl
      rcases List.mem_cons.mp hl with rfl | hl'
      · exact takeLine_fst_length _ _
      · have h2 := takeLine_snd_length LINE_MAX_SIZE c t (by decide)
        exact ih (takeLine LINE_MAX_SIZE (c :: t)).2.length (by omega) _ rfl l hl'

/-- Claim C10: a nonempty stream with no newline character (one over-long
physical line) is read in bounded chunks: the first read returns exactly the
first `LINE_MAX_SIZE` characters and the loop continues on the remainder as
if it were further lines, the chunks concatenate back to the stream, every
chunk is at most `LINE_MAX_SIZE` characters, and more than one line is
reported exactly when the physical line exceeds `LINE_MAX_SIZE` — so the
1-based line numbers attached to the chunks can exceed the physical line
count. -/
theorem readLines_chunking (cs : List Char) (hnl : ∀ c ∈ cs, c ≠ '\n')
    (hne : cs ≠ []) :
    readLines cs = cs.take LINE_MAX_SIZE :: readLines (cs.drop LINE_MAX_SIZE) ∧
    (readLines cs).flatten = cs ∧
    (∀ l ∈ readLines cs, l.length ≤ LINE_MAX_SIZE) ∧
    (1 < (readLines cs).length ↔ LINE_MAX_SIZE < cs.length) := by
  have htake : takeLine LINE_MAX_SIZE cs =
      (cs.take LINE_MAX_SIZE, cs.drop LINE_MAX_SIZE) :=
    takeLine_no_newline _ _ (fun c hc => hnl c ((List.take_sublist _ _).subset hc))
  have hchunk : readLines cs =
      cs.take LINE_MAX_SIZE :: readLines (cs.drop LINE_MAX_SIZE) := by
    rw [readLines_cons cs hne, htake]
  refine ⟨hchunk, readLines_join cs, readLines_chunk_le cs, ?_, ?_⟩
  · intro h1
    by_contra hle
    push_neg at hle
    have hdrop : cs.drop LINE_MAX_SIZE = [] := List.drop_eq_nil_of_le hle
    rw [hchunk, hdrop] at h1
    have hz : readLines ([] : List Char) = [] := rfl
    rw [hz] at h1
    simp at h1
  · intro hlt
    have hdrop : cs.drop LINE_MAX_SIZE ≠ [] := by
      intro h
      have hlen := congrArg List.length h
      simp only [List.length_drop, List.length_nil] at hlen
      omega
    have hr : readLines (cs.drop LINE_MAX_SIZE) ≠ [] := by
      rw [readLines_cons _ hdrop]
      simp
    have hpos : 0 < (readLines (cs.drop LINE_MAX_SIZE)).length :=
      List.length_pos.mpr hr
    rw [hchunk]
    simp only [List.length_cons]
    omega

/-- Witness for C10: a 10001-character physical line is split into chunks. -/
theorem readLines_chunking_witness :
    readLines (List.replicate 10001 'a') =
      (List.replicate 10001 'a').take LINE_MAX_SIZE ::
        readLines ((List.replicate 10001 'a').drop LINE_MAX_SIZE) ∧
    (readLines (List.replicate 10001 'a')).flatten = List.replicate 10001 'a' ∧
    (∀ l ∈ readLines (List.replicate 10001 'a'), l.length ≤ LINE_MAX_SIZE) ∧
    (1 < (readLines (List.replicate 10001 'a')).length ↔
      LINE_MAX_SIZE < (List.replicate 10001 'a').length) :=
  readLines_chunking (List.replicate 10001 'a')
    (fun c hc => by rw [List.eq_of_mem_replicate hc]; decide)
    (List.ne_nil_of_length_pos (by rw [List.length_replicate]; decide))

/-- Claim C2 (code bug evaluation): on a file whose bytes fail strict UTF-8
decoding the loader aborts with no partial result, but not with the
documented error: the `except UnicodeDecodeError` handler itself raises
`TypeError` (the `UnicodeDecodeError` constructor needs five arguments), so
the failing path is never reported and `main`, which catches only
`OSError`, `UnicodeDecodeError` and `ValueError`, dies with a traceback.
The unreadable-file half of the claim does hold: an `OSError` naming the
path is raised and caught. -/
theorem load_bad_encoding_and_unreadable (path pre a : List Char) :
    load_logs path (FileInput.badEncoding pre) = LoadResult.typeError ∧
    main [a, path] (FileInput.badEncoding pre) = RunResult.crashed [] ∧
    load_logs path FileInput.unreadable = LoadResult.osError path ∧
    main [a, path] FileInput.unreadable =
      RunResult.finished
        ["ERROR: File `".toList ++ path ++ "` can\x27t be read.".toList] (-1) := by
  exact ⟨rfl, rfl, rfl, rfl⟩

/-- Claim C1 (code bug evaluation): on an argument error the program prints
a message and `main` returns -1, but the call site `main()` discards the
returned value instead of passing it to `sys.exit`, so the process still
exits with status 0; a successful run also finishes with status 0. -/
theorem main_error_exit_status_zero :
    main ["main.py".toList] (FileInput.readable []) =
      RunResult.finished
        ["ERROR: ".toList ++ "Wrong number of arguments.".toList ++
          " Try again.\n\n".toList ++ MSG_HELP] (-1) ∧
    processExit (main ["main.py".toList] (FileInput.readable [])) = 0 ∧
    (∃ out, main ["main.py".toList, "test.log".toList]
        (FileInput.readable "2024-01-01 10:00:00 INFO ok\n".toList) =
        RunResult.finished out 0) ∧
    processExit (RunResult.crashed []) = 1 := by
  refine ⟨rfl, rfl, ⟨_, rfl⟩, rfl⟩

/-- Claim C5 counterexample: an empty-string second argument is not
rejected, although its uppercase form is not one of the four levels — the
truthiness test `if args[1]:` treats the empty string like a missing
argument. -/
theorem parse_args_empty_level_cex :
    parse_args ["main.py".toList, "app.log".toList, []] =
      ArgsResult.ok "app.log".toList (some []) ∧ pyUpper [] ∉ LOG_LEVELS := by
  decide

/-- Claim C5 as amended: 0 or 3+ positional arguments give an argument
error, and argument errors leave the file untouched; one argument gives no
level; a non-empty second argument is an error exactly when its uppercase
form is not one of the four levels, and otherwise the uppercased level is
returned; an empty second argument is accepted unvalidated. -/
theorem parse_args_amended :
    (∀ a, parse_args [a] = ArgsResult.err "Wrong number of arguments.".toList) ∧
    (∀ a x y z rest, parse_args (a :: x :: y :: z :: rest) =
      ArgsResult.err "Wrong number of arguments.".toList) ∧
    (∀ argv f g e, parse_args argv = ArgsResult.err e → main argv f = main argv g) ∧
    (∀ a p, parse_args [a, p] = ArgsResult.ok p none) ∧
    (∀ a p s, s ≠ [] → pyUpper s ∈ LOG_LEVELS →
      parse_args [a, p, s] = ArgsResult.ok p (some (pyUpper s))) ∧
    (∀ a p s, s ≠ [] → pyUpper s ∉ LOG_LEVELS →
      parse_args [a, p, s] = ArgsResult.err "Log level value is invalid.".toList) ∧
    (∀ a p, parse_args [a, p, []] = ArgsResult.ok p (some [])) := by
  refine ⟨fun a => rfl, ?_, ?_, fun a p => rfl, ?_, ?_, fun a p => rfl⟩
  · intro a x y z rest
    simp only [parse_args, List.drop_succ_cons, List.drop_zero]
    rw [if_pos]
    simp [ARGS_MAX_COUNT]
  · intro argv f g e h
    simp only [main, h]
  · intro a p s hne hmem
    simp only [parse_args, List.drop_succ_cons, List.drop_zero]
    rw [if_neg (by simp [ARGS_MIN_COUNT, ARGS_MAX_COUNT])]
    simp [hne, hmem]
  · intro a p s hne hmem
    simp only [parse_args, List.drop_succ_cons, List.drop_zero]
    rw [if_neg (by simp [ARGS_MIN_COUNT, ARGS_MAX_COUNT])]
    simp [hne, hmem]

/-- Witness for the amended C5 at concrete arguments. -/
theorem parse_args_amended_witness :
    parse_args ["main.py".toList, "app.log".toList, "error".toList] =
      ArgsResult.ok "app.log".toList (some (pyUpper "error".toList)) ∧
    pyUpper "error".toList = "ERROR".toList :=
  ⟨parse_args_amended.2.2.2.2.1 "main.py".toList "app.log".toList "error".toList
    (by decide) (by decide), by decide⟩

end CheckLogs
